import Mathlib

/-!
Verification of the Cost Manager persistence layer (`src/lib/idb.js`).

The `IDBWrapper` class wraps an IndexedDB object store named `costs` with
`keyPath: 'id'`, `autoIncrement: true`, and two non-unique secondary
indexes (`date`, `category`).  We embed it shallowly:

* a timestamp is a `Nat` counting milliseconds (the value of a JS `Date`);
* a `Cost` record carries the persisted fields `{id, sum, category,
  description, date}`; `sum` is modelled as `Int` (exact arithmetic);
* the store is a list of records together with the engine's key
  generator (`nextId`);
* the `date`-index cursor scan is the records matching the key range,
  enumerated in ascending `(date, id)` order — IndexedDB index cursors
  visit entries ordered by index key, ties broken by primary key;
* the reduce in `getCostsByCategory` builds a JS object, modelled as an
  association list in insertion order;
* date mutation: `getCostsByDateRange` calls `setHours` on its
  caller-supplied arguments; the embedding returns the mutated values
  (`startDate`, `endDate` fields of the output) alongside the result
  list and the (unchanged) store.
-/

namespace CostManager

/-- Milliseconds in one day, the granularity of `setHours(0,0,0,0)` /
`setHours(23,59,59,999)` normalization. -/
def msPerDay : Nat := 86400000

/-- Effect of `startDate.setHours(0, 0, 0, 0)`: the timestamp of 00:00:00.000 of
the day containing `t`. -/
def startOfDay (t : Nat) : Nat := t / msPerDay * msPerDay

/-- Effect of `endDate.setHours(23, 59, 59, 999)`: the timestamp of 23:59:59.999 of
the day containing `t`. -/
def endOfDay (t : Nat) : Nat := t / msPerDay * msPerDay + (msPerDay - 1)

/-- A persisted cost record: `{id, sum, category, description, date}`. -/
structure Cost where
  id : Nat
  sum : Int
  category : String
  description : String
  date : Nat
deriving Repr, DecidableEq

/-- The argument of `addCost`: a record without `id`; `date` may be
absent (`!cost.date` in the source). -/
structure CostInput where
  sum : Int
  category : String
  description : String
  date : Option Nat
deriving Repr, DecidableEq

/-- The `costs` object store: its records plus the auto-increment key
generator (IndexedDB generators start at 1). -/
structure CostStore where
  records : List Cost
  nextId : Nat
deriving Repr, DecidableEq

/-- The store created by `onupgradeneeded` on first open. -/
def emptyStore : CostStore := { records := [], nextId := 1 }

/-- Membership test of `IDBKeyRange.bound(startDate, endDate)` for a
record of the `date` index: both bounds inclusive. -/
def inRange (lo hi : Nat) (c : Cost) : Bool :=
  decide (lo ≤ c.date) && decide (c.date ≤ hi)

/-- Index-cursor visiting order of the `date` index: ascending date,
ties broken by ascending primary key `id`. -/
def costLe (a b : Cost) : Bool :=
  decide (a.date < b.date ∨ (a.date = b.date ∧ a.id ≤ b.id))

/-- Insert a record into a list sorted by `costLe`, keeping it sorted. -/
def insortCost (a : Cost) : List Cost → List Cost
  | [] => [a]
  | b :: l => if costLe a b then a :: b :: l else b :: insortCost a l

/-- Enumerate records in the `date`-index cursor order `(date, id)`. -/
def sortByDateId : List Cost → List Cost
  | [] => []
  | a :: l => insortCost a (sortByDateId l)

/-- Data effect of `openCostsDB(dbName, version)`: on first run
`onupgradeneeded` creates the `costs` store (with its indexes); on a
later run the existing store is kept untouched.  `none` models a
database that does not exist yet. -/
def openCostsDB (env : Option CostStore) : Option CostStore :=
  some (env.getD emptyStore)

/-- Source `init()` delegates to `openCostsDB('CostManagerDB', 1)`. -/
def init (env : Option CostStore) : Option CostStore :=
  openCostsDB env

/-- Source `addCost(cost)`: defaults `date` to the current moment `now` when
absent, then `store.add(cost)` assigns the generator key and resolves
with it. -/
def addCost (now : Nat) (cost : CostInput) (st : CostStore) :
    Nat × CostStore :=
  let d := cost.date.getD now
  let r : Cost :=
    { id := st.nextId, sum := cost.sum, category := cost.category,
      description := cost.description, date := d }
  (st.nextId, { records := st.records ++ [r], nextId := st.nextId + 1 })

/-- Result of `getCostsByDateRange`: the mutated caller-supplied dates,
the resolved array, and the store (the transaction is `readonly`). -/
structure RangeQueryOut where
  startDate : Nat
  endDate : Nat
  costs : List Cost
  store : CostStore
deriving Repr, DecidableEq

/-- Source `getCostsByDateRange(startDate, endDate)`: normalizes the two dates
in place, then walks a cursor over `IDBKeyRange.bound` on the `date`
index, collecting the records in cursor order. -/
def getCostsByDateRange (startDate endDate : Nat) (st : CostStore) :
    RangeQueryOut :=
  let s := startOfDay startDate
  let e := endOfDay endDate
  { startDate := s, endDate := e,
    costs := sortByDateId (st.records.filter (inRange s e)),
    store := st }

/-- One step of the reduce in `getCostsByCategory`:
`acc[cost.category] = (acc[cost.category] || 0) + cost.sum` on a JS
object modelled as an association list in insertion order. -/
def bumpCategory (acc : List (String × Int)) (cat : String) (v : Int) :
    List (String × Int) :=
  if acc.any (fun p => p.1 == cat) then
    acc.map (fun p => if p.1 == cat then (p.1, p.2 + v) else p)
  else
    acc ++ [(cat, v)]

/-- Result of `getCostsByCategory`: the mutated dates (mutation happens
inside the delegated range query), the category-totals object, and the
unchanged store. -/
structure CategoryQueryOut where
  startDate : Nat
  endDate : Nat
  totals : List (String × Int)
  store : CostStore
deriving Repr, DecidableEq

/-- Source `getCostsByCategory(startDate, endDate)`: awaits the range query and
reduces its result into `{category: total}`. -/
def getCostsByCategory (startDate endDate : Nat) (st : CostStore) :
    CategoryQueryOut :=
  let out := getCostsByDateRange startDate endDate st
  { startDate := out.startDate, endDate := out.endDate,
    totals := out.costs.foldl
      (fun acc c => bumpCategory acc c.category c.sum) [],
    store := out.store }

/-- Property lookup `obj[cat]` on the modelled JS object. -/
def mapLookup (acc : List (String × Int)) (cat : String) : Option Int :=
  (acc.find? (fun p => p.1 == cat)).map (fun p => p.2)

/-- Source `updateCost(cost)` = `store.put(cost)` with an in-line `id`:
replaces the record at that key entirely, or inserts a new record when
the key is unseen; a put with key `≥` the generator bumps the
generator past it. -/
def updateCost (cost : Cost) (st : CostStore) : CostStore :=
  { records :=
      if st.records.any (fun c => c.id == cost.id) then
        st.records.map (fun c => if c.id == cost.id then cost else c)
      else
        st.records ++ [cost],
    nextId := max st.nextId (cost.id + 1) }

/-- Source `deleteCost(id)` = `store.delete(id)`: removes the record with that
key when present; resolves either way. -/
def deleteCost (id : Nat) (st : CostStore) : CostStore :=
  { records := st.records.filter (fun c => !(c.id == id)),
    nextId := st.nextId }

/-- Generator invariant maintained by the engine: every persisted key is
below the generator's next value. -/
def storeWF (st : CostStore) : Prop :=
  ∀ c ∈ st.records, c.id < st.nextId

/-- Whether some record of `l` carries category `cat`. -/
def hasCat (l : List Cost) (cat : String) : Bool :=
  l.any (fun c => c.category == cat)

/-- The sum of the `sum` fields of the records of `l` whose category is
`cat`. -/
def sumCat (l : List Cost) (cat : String) : Int :=
  ((l.filter (fun c => c.category == cat)).map Cost.sum).sum

/-! ### Helper lemmas about the cursor order and day arithmetic -/

lemma costLe_iff (a b : Cost) :
    costLe a b = true ↔ a.date < b.date ∨ (a.date = b.date ∧ a.id ≤ b.id) := by
  simp [costLe]

lemma costLe_total (a b : Cost) : costLe a b = true ∨ costLe b a = true := by
  simp only [costLe_iff]
  omega

lemma costLe_trans {a b c : Cost} (h1 : costLe a b = true)
    (h2 : costLe b c = true) : costLe a c = true := by
  simp only [costLe_iff] at *
  omega

lemma costLe_date {a b : Cost} (h : costLe a b = true) : a.date ≤ b.date := by
  rw [costLe_iff] at h
  omega

lemma insortCost_perm (a : Cost) (l : List Cost) :
    (insortCost a l).Perm (a :: l) := by
  induction l with
  | nil => simp [insortCost]
  | cons b t ih =>
    rw [insortCost]
    by_cases h : costLe a b = true
    · rw [if_pos h]
    · rw [if_neg h]
      exact (List.Perm.cons b ih).trans (List.Perm.swap a b t)

lemma sortByDateId_perm (l : List Cost) : (sortByDateId l).Perm l := by
  induction l with
  | nil => rfl
  | cons a t ih =>
    rw [sortByDateId]
    exact (insortCost_perm a (sortByDateId t)).trans (List.Perm.cons a ih)

lemma mem_sortByDateId {c : Cost} {l : List Cost} :
    c ∈ sortByDateId l ↔ c ∈ l :=
  (sortByDateId_perm l).mem_iff

lemma insortCost_pairwise (a : Cost) (l : List Cost)
    (h : l.Pairwise (fun x y => costLe x y = true)) :
    (insortCost a l).Pairwise (fun x y => costLe x y = true) := by
  induction l with
  | nil => simp [insortCost]
  | cons b t ih =>
    rw [List.pairwise_cons] at h
    obtain ⟨hb, ht⟩ := h
    rw [insortCost]
    by_cases hab : costLe a b = true
    · rw [if_pos hab, List.pairwise_cons]
      refine ⟨?_, List.pairwise_cons.mpr ⟨hb, ht⟩⟩
      intro y hy
      rcases List.mem_cons.mp hy with rfl | hyt
      · exact hab
      · exact costLe_trans hab (hb y hyt)
    · rw [if_neg hab, List.pairwise_cons]
      refine ⟨?_, ih ht⟩
      intro y hy
      rcases List.mem_cons.mp ((insortCost_perm a t).mem_iff.mp hy) with heq | hyt
      · rcases costLe_total a b with h1 | h1
        · exact absurd h1 hab
        · rw [heq]
          exact h1
      · exact hb y hyt

lemma sortByDateId_pairwise (l : List Cost) :
    (sortByDateId l).Pairwise (fun x y => costLe x y = true) := by
  induction l with
  | nil => exact List.Pairwise.nil
  | cons a t ih => exact insortCost_pairwise a (sortByDateId t) ih

lemma sortByDateId_date_pairwise (l : List Cost) :
    (sortByDateId l).Pairwise (fun a b => a.date ≤ b.date) :=
  (sortByDateId_pairwise l).imp (fun h => costLe_date h)

lemma inRange_iff (lo hi : Nat) (c : Cost) :
    inRange lo hi c = true ↔ lo ≤ c.date ∧ c.date ≤ hi := by
  simp [inRange]

lemma day_range_iff (d t : Nat) :
    (startOfDay d ≤ t ∧ t ≤ endOfDay d) ↔ t / msPerDay = d / msPerDay := by
  unfold startOfDay endOfDay msPerDay
  omega

lemma startOfDay_le_self (t : Nat) : startOfDay t ≤ t := by
  unfold startOfDay msPerDay
  omega

lemma self_le_endOfDay (t : Nat) : t ≤ endOfDay t := by
  unfold endOfDay msPerDay
  omega

/-! ### Helper lemmas about the category reduce -/

lemma mapLookup_nil (cat : String) : mapLookup [] cat = none := rfl

lemma mapLookup_append_single (acc : List (String × Int)) (cat : String)
    (v : Int) (h : acc.any (fun p => p.1 == cat) = false) :
    mapLookup (acc ++ [(cat, v)]) cat = some v := by
  induction acc with
  | nil => simp [mapLookup]
  | cons p t ih =>
    simp only [List.any_cons, Bool.or_eq_false_iff] at h
    simp only [List.cons_append, mapLookup, List.find?]
    rw [h.1]
    exact ih h.2

lemma mapLookup_map_update (acc : List (String × Int)) (cat : String)
    (v : Int) (h : acc.any (fun p => p.1 == cat) = true) :
    mapLookup (acc.map (fun p => if p.1 == cat then (p.1, p.2 + v) else p)) cat
      = some ((mapLookup acc cat).getD 0 + v) := by
  induction acc with
  | nil => simp at h
  | cons p t ih =>
    by_cases hp : (p.1 == cat) = true
    · rw [List.map_cons, if_pos hp]
      simp only [mapLookup, List.find?_cons]
      simp [hp]
    · rw [Bool.not_eq_true] at hp
      simp only [List.any_cons, hp, Bool.false_or] at h
      rw [List.map_cons, if_neg (by simp [hp])]
      simp only [mapLookup, List.find?_cons, hp]
      simpa [mapLookup] using ih h

lemma mapLookup_bumpCategory_same (acc : List (String × Int)) (cat : String)
    (v : Int) :
    mapLookup (bumpCategory acc cat v) cat
      = some ((mapLookup acc cat).getD 0 + v) := by
  unfold bumpCategory
  by_cases h : acc.any (fun p => p.1 == cat) = true
  · rw [if_pos h]
    exact mapLookup_map_update acc cat v h
  · rw [Bool.not_eq_true] at h
    rw [if_neg (by simp [h]), mapLookup_append_single acc cat v h]
    have hnone : mapLookup acc cat = none := by
      unfold mapLookup
      rw [List.find?_eq_none.mpr]
      · rfl
      · intro p hp
        have := List.any_eq_false.mp h p hp
        simpa using this
    rw [hnone]
    simp

lemma find?_map_update_other (acc : List (String × Int)) (cat cat' : String)
    (v : Int) (h : cat' ≠ cat) :
    (acc.map (fun p => if p.1 == cat then (p.1, p.2 + v) else p)).find?
        (fun p => p.1 == cat')
      = acc.find? (fun p => p.1 == cat') := by
  induction acc with
  | nil => rfl
  | cons p t ih =>
    by_cases hp : (p.1 == cat) = true
    · have hp1 : p.1 = cat := by simpa using hp
      have hne : (p.1 == cat') = false := by
        simp only [beq_eq_false_iff_ne, ne_eq, hp1]
        exact fun hc => h hc.symm
      rw [List.map_cons, if_pos hp]
      simp only [List.find?_cons, hne]
      exact ih
    · rw [Bool.not_eq_true] at hp
      rw [List.map_cons, if_neg (by simp [hp])]
      simp only [List.find?_cons]
      by_cases hq : (p.1 == cat') = true
      · simp [hq]
      · rw [Bool.not_eq_true] at hq
        simp only [hq]
        exact ih

lemma mapLookup_bumpCategory_other (acc : List (String × Int))
    (cat cat' : String) (v : Int) (h : cat' ≠ cat) :
    mapLookup (bumpCategory acc cat v) cat' = mapLookup acc cat' := by
  unfold bumpCategory
  by_cases hmem : acc.any (fun p => p.1 == cat) = true
  · rw [if_pos hmem]
    unfold mapLookup
    rw [find?_map_update_other acc cat cat' v h]
  · rw [Bool.not_eq_true] at hmem
    rw [if_neg (by simp [hmem])]
    unfold mapLookup
    rw [List.find?_append]
    by_cases hfind : (acc.find? (fun p => p.1 == cat')).isSome
    · obtain ⟨q, hq⟩ := Option.isSome_iff_exists.mp hfind
      rw [hq]
      simp
    · rw [Option.not_isSome_iff_eq_none] at hfind
      rw [hfind]
      simp only [Option.none_or]
      have hne : ((cat, v).1 == cat') = false := by
        simp only [beq_eq_false_iff_ne, ne_eq]
        exact fun hc => h hc.symm
      simp [List.find?, hne]

lemma hasCat_cons (c : Cost) (t : List Cost) (cat : String) :
    hasCat (c :: t) cat = ((c.category == cat) || hasCat t cat) := by
  simp [hasCat]

lemma sumCat_cons (c : Cost) (t : List Cost) (cat : String) :
    sumCat (c :: t) cat
      = (if (c.category == cat) = true then c.sum else 0) + sumCat t cat := by
  unfold sumCat
  by_cases hc : (c.category == cat) = true
  · simp [List.filter_cons, hc]
  · rw [Bool.not_eq_true] at hc
    simp [List.filter_cons, hc]

lemma sumCat_of_hasCat_false (t : List Cost) (cat : String)
    (h : hasCat t cat = false) : sumCat t cat = 0 := by
  unfold hasCat at h
  unfold sumCat
  rw [List.filter_eq_nil_iff.mpr]
  · rfl
  · intro c hc
    have := List.any_eq_false.mp h c hc
    simpa using this

lemma mapLookup_fold_bump (l : List Cost) (acc : List (String × Int))
    (cat : String) :
    mapLookup (l.foldl (fun a c => bumpCategory a c.category c.sum) acc) cat
      = if hasCat l cat then
          some ((mapLookup acc cat).getD 0 + sumCat l cat)
        else mapLookup acc cat := by
  induction l generalizing acc with
  | nil => simp [hasCat]
  | cons c t ih =>
    rw [List.foldl_cons, ih]
    by_cases hc : (c.category == cat) = true
    · have hcc : c.category = cat := by simpa using hc
      rw [hcc, mapLookup_bumpCategory_same]
      have hcons : hasCat (c :: t) cat = true := by
        simp [hasCat_cons, hc]
      by_cases ht : hasCat t cat = true
      · rw [if_pos ht, if_pos hcons, sumCat_cons, if_pos hc]
        simp only [Option.getD_some, Option.some.injEq]
        omega
      · rw [Bool.not_eq_true] at ht
        rw [if_neg (by simp [ht]), if_pos hcons, sumCat_cons, if_pos hc,
          sumCat_of_hasCat_false t cat ht]
        simp
    · rw [Bool.not_eq_true] at hc
      have hne : cat ≠ c.category := by
        intro hcc
        simp [hcc] at hc
      rw [mapLookup_bumpCategory_other _ _ _ _ hne]
      have hcons : hasCat (c :: t) cat = hasCat t cat := by
        simp [hasCat_cons, hc]
      rw [hcons, sumCat_cons, hc]
      simp

lemma find?_id_map_replace (r : Cost) (l : List Cost)
    (h : l.any (fun c => c.id == r.id) = true) :
    (l.map (fun c => if c.id == r.id then r else c)).find?
        (fun c => c.id == r.id) = some r := by
  induction l with
  | nil => simp at h
  | cons c t ih =>
    by_cases hc : (c.id == r.id) = true
    · rw [List.map_cons, if_pos hc]
      simp only [List.find?_cons]
      simp
    · rw [Bool.not_eq_true] at hc
      rw [List.map_cons, if_neg (by simp [hc])]
      simp only [List.find?_cons, hc]
      apply ih
      simp only [List.any_cons, hc, Bool.false_or] at h
      exact h

lemma find?_id_append_self (r : Cost) (l : List Cost)
    (h : l.any (fun c => c.id == r.id) = false) :
    (l ++ [r]).find? (fun c => c.id == r.id) = some r := by
  induction l with
  | nil => simp [List.find?_cons]
  | cons c t ih =>
    simp only [List.any_cons, Bool.or_eq_false_iff] at h
    rw [List.cons_append]
    simp only [List.find?_cons, h.1]
    exact ih h.2

/-! ### Claim theorems -/

/-- C1: for every store state and every pair of dates, `getCostsByDateRange`
resolves with exactly the persisted records whose `date` lies in
`[startOfDay startDate, endOfDay endDate]` inclusive, in ascending date
order; for a single day `(d, d)` it returns exactly the records whose date
falls on day `d`, regardless of the time-of-day component stored at
insertion. -/
theorem getCostsByDateRange_range_spec (startDate endDate : Nat)
    (st : CostStore) :
    (∀ c, c ∈ (getCostsByDateRange startDate endDate st).costs ↔
      (c ∈ st.records ∧ startOfDay startDate ≤ c.date ∧
        c.date ≤ endOfDay endDate)) ∧
    ((getCostsByDateRange startDate endDate st).costs).Perm
      (st.records.filter (inRange (startOfDay startDate) (endOfDay endDate))) ∧
    ((getCostsByDateRange startDate endDate st).costs).Pairwise
      (fun a b => a.date ≤ b.date) ∧
    (∀ d c, c ∈ (getCostsByDateRange d d st).costs ↔
      (c ∈ st.records ∧ c.date / msPerDay = d / msPerDay)) := by
  refine ⟨?_, ?_, ?_, ?_⟩
  · intro c
    simp [getCostsByDateRange, mem_sortByDateId, List.mem_filter, inRange_iff]
  · exact sortByDateId_perm _
  · exact sortByDateId_date_pairwise _
  · intro d c
    rw [show (getCostsByDateRange d d st).costs
        = sortByDateId (st.records.filter
            (inRange (startOfDay d) (endOfDay d))) from rfl,
      mem_sortByDateId, List.mem_filter, inRange_iff]
    rw [and_congr_right_iff]
    intro _
    exact day_range_iff d c.date

/-- C2: the mapping resolved by `getCostsByCategory` has an entry for
exactly the categories with at least one record in the corresponding
`getCostsByDateRange` result, each entry's value is the sum of the `sum`
fields of the range-query records of that category, and categories with no
records in the range are absent (not present with zero). -/
theorem getCostsByCategory_totals_spec (startDate endDate : Nat)
    (st : CostStore) (cat : String) :
    mapLookup (getCostsByCategory startDate endDate st).totals cat
      = (if hasCat (getCostsByDateRange startDate endDate st).costs cat then
          some (sumCat (getCostsByDateRange startDate endDate st).costs cat)
        else none) := by
  rw [show (getCostsByCategory startDate endDate st).totals
      = ((getCostsByDateRange startDate endDate st).costs).foldl
          (fun acc c => bumpCategory acc c.category c.sum) [] from rfl,
    mapLookup_fold_bump, mapLookup_nil]
  by_cases h : hasCat (getCostsByDateRange startDate endDate st).costs cat = true
  · rw [if_pos h, if_pos h]
    simp
  · rw [Bool.not_eq_true] at h
    rw [if_neg (by simp [h]), if_neg (by simp [h])]

/-- C5: `getCostsByDateRange` mutates its caller-supplied arguments: after
the call the start date holds 00:00:00.000 of its day and the end date
23:59:59.999 of its day; the store itself (the only other caller-visible
state) is unchanged by the read-only query. -/
theorem getCostsByDateRange_mutation_spec (startDate endDate : Nat)
    (st : CostStore) :
    (getCostsByDateRange startDate endDate st).startDate
        = startOfDay startDate ∧
    (getCostsByDateRange startDate endDate st).endDate = endOfDay endDate ∧
    startOfDay startDate % msPerDay = 0 ∧
    startOfDay startDate / msPerDay = startDate / msPerDay ∧
    endOfDay endDate % msPerDay = msPerDay - 1 ∧
    endOfDay endDate / msPerDay = endDate / msPerDay ∧
    (getCostsByDateRange startDate endDate st).store = st := by
  refine ⟨rfl, rfl, ?_, ?_, ?_, ?_, rfl⟩ <;>
    first
      | (unfold startOfDay msPerDay; omega)
      | (unfold endOfDay msPerDay; omega)

/-- C7: `init` is idempotent: running it again after a successful run is a
no-op on the database (the same store state results, so every subsequent
operation behaves as after a single `init`), and it resolves successfully. -/
theorem init_idempotent (env : Option CostStore) :
    init (init env) = init env ∧ ∃ st, init env = some st := by
  unfold init openCostsDB
  cases env <;> simp

/-- C10: `getCostsByCategory` delegates to `getCostsByDateRange` without
copying its arguments, so the caller-supplied dates come back normalized to
start-of-day and end-of-day exactly as for the range query. -/
theorem getCostsByCategory_mutation_spec (startDate endDate : Nat)
    (st : CostStore) :
    (getCostsByCategory startDate endDate st).startDate
        = startOfDay startDate ∧
    (getCostsByCategory startDate endDate st).endDate = endOfDay endDate ∧
    (getCostsByCategory startDate endDate st).store = st :=
  ⟨rfl, rfl, rfl⟩

/-- C3: `updateCost` replaces the stored record at the supplied record's
`id` entirely with the supplied fields, leaves every other record
untouched, and when no record with that `id` exists it silently creates
the record at that `id` (upsert) — the operation is total, so it never
fails with `NotFound`. -/
theorem updateCost_spec (r : Cost) (st : CostStore) :
    ((updateCost r st).records.find? (fun c => c.id == r.id) = some r) ∧
    (∀ c, c.id ≠ r.id → (c ∈ (updateCost r st).records ↔ c ∈ st.records)) ∧
    ((∀ c ∈ st.records, c.id ≠ r.id) →
      (updateCost r st).records = st.records ++ [r]) := by
  by_cases hmem : st.records.any (fun c => c.id == r.id) = true
  · have hrec : (updateCost r st).records
        = st.records.map (fun c => if c.id == r.id then r else c) := by
      simp [updateCost, hmem]
    refine ⟨?_, ?_, ?_⟩
    · rw [hrec]
      exact find?_id_map_replace r st.records hmem
    · intro c hc
      rw [hrec]
      constructor
      · intro hin
        obtain ⟨a, ha, hfa⟩ := List.mem_map.mp hin
        by_cases haid : (a.id == r.id) = true
        · rw [if_pos haid] at hfa
          exfalso
          apply hc
          rw [← hfa]
        · rw [Bool.not_eq_true] at haid
          rw [if_neg (by simp [haid])] at hfa
          rw [← hfa]
          exact ha
      · intro hin
        apply List.mem_map.mpr
        refine ⟨c, hin, ?_⟩
        rw [if_neg (by simp [hc])]
    · intro hnone
      obtain ⟨c, hcmem, hcid⟩ := List.any_eq_true.mp hmem
      exact absurd (by simpa using hcid) (hnone c hcmem)
  · rw [Bool.not_eq_true] at hmem
    have hrec : (updateCost r st).records = st.records ++ [r] := by
      simp [updateCost, hmem]
    refine ⟨?_, ?_, fun _ => hrec⟩
    · rw [hrec]
      exact find?_id_append_self r st.records hmem
    · intro c hc
      rw [hrec, List.mem_append]
      simp only [List.mem_singleton]
      constructor
      · rintro (h | h)
        · exact h
        · exfalso
          apply hc
          rw [h]
      · exact fun h => Or.inl h

/-- C3 witness: updating with an unseen id on the empty store creates the
record (upsert). -/
theorem updateCost_spec_witness :
    (updateCost ⟨1, 5, "Food", "", 0⟩ emptyStore).records
      = emptyStore.records ++ [⟨1, 5, "Food", "", 0⟩] :=
  (updateCost_spec ⟨1, 5, "Food", "", 0⟩ emptyStore).2.2 (by decide)

/-- C4: `deleteCost` removes the record with the given id if present (so
it no longer appears in any subsequent range query), is a no-op leaving
the store unchanged when no such record exists, and deleting the same id
twice equals deleting it once. -/
theorem deleteCost_spec (id : Nat) (st : CostStore) :
    (∀ c, c ∈ (deleteCost id st).records ↔ (c ∈ st.records ∧ c.id ≠ id)) ∧
    ((∀ c ∈ st.records, c.id ≠ id) → deleteCost id st = st) ∧
    deleteCost id (deleteCost id st) = deleteCost id st ∧
    (∀ s e c, c ∈ (getCostsByDateRange s e (deleteCost id st)).costs →
      c.id ≠ id) := by
  refine ⟨?_, ?_, ?_, ?_⟩
  · intro c
    simp [deleteCost, List.mem_filter]
  · intro h
    unfold deleteCost
    cases st with
    | mk recs nid =>
      simp only [CostStore.mk.injEq, and_true]
      apply List.filter_eq_self.mpr
      intro c hc
      simpa using h c hc
  · unfold deleteCost
    simp only [CostStore.mk.injEq, and_true]
    apply List.filter_eq_self.mpr
    intro c hc
    exact (List.mem_filter.mp hc).2
  · intro s e c hmem
    have h1 := mem_sortByDateId.mp hmem
    have h2 := (List.mem_filter.mp h1).1
    have h3 := (List.mem_filter.mp h2).2
    simpa using h3

/-- C4 witness: deleting an id absent from the empty store is a no-op. -/
theorem deleteCost_spec_witness :
    deleteCost 1 emptyStore = emptyStore :=
  (deleteCost_spec 1 emptyStore).2.1 (by decide)

/-- C6: under the engine's generator invariant, `addCost` assigns the
generator's next integer id — distinct from every persisted id and one
larger than any future assignment's predecessor (auto-increment) —
resolves with that id, preserves the invariant, and the inserted record is
retrievable via a range query covering its date. -/
theorem addCost_spec (now : Nat) (cost : CostInput) (st : CostStore)
    (hwf : storeWF st) :
    (addCost now cost st).1 = st.nextId ∧
    (∀ c ∈ st.records, c.id ≠ (addCost now cost st).1) ∧
    storeWF (addCost now cost st).2 ∧
    (addCost now cost st).2.nextId = st.nextId + 1 ∧
    (∃ r, r ∈ (addCost now cost st).2.records ∧
      r.id = (addCost now cost st).1 ∧
      r ∈ (getCostsByDateRange (cost.date.getD now) (cost.date.getD now)
            (addCost now cost st).2).costs) := by
  have hrec : (addCost now cost st).2.records
      = st.records ++ [⟨st.nextId, cost.sum, cost.category,
          cost.description, cost.date.getD now⟩] := rfl
  refine ⟨rfl, ?_, ?_, rfl, ?_⟩
  · intro c hc heq
    rw [show (addCost now cost st).1 = st.nextId from rfl] at heq
    have := hwf c hc
    omega
  · intro c hc
    rw [hrec] at hc
    show c.id < st.nextId + 1
    rcases List.mem_append.mp hc with h | h
    · have := hwf c h
      omega
    · rw [List.mem_singleton.mp h]
      exact Nat.lt_succ_self _
  · refine ⟨⟨st.nextId, cost.sum, cost.category, cost.description,
        cost.date.getD now⟩, ?_, rfl, ?_⟩
    · rw [hrec]
      exact List.mem_append_right _ (List.mem_singleton_self _)
    · rw [show (getCostsByDateRange (cost.date.getD now) (cost.date.getD now)
          (addCost now cost st).2).costs
          = sortByDateId ((addCost now cost st).2.records.filter
              (inRange (startOfDay (cost.date.getD now))
                (endOfDay (cost.date.getD now)))) from rfl,
        mem_sortByDateId, List.mem_filter]
      refine ⟨?_, ?_⟩
      · rw [hrec]
        exact List.mem_append_right _ (List.mem_singleton_self _)
      · rw [inRange_iff]
        exact ⟨startOfDay_le_self _, self_le_endOfDay _⟩

/-- C6 witness: the first insertion into a fresh store gets id 1. -/
theorem addCost_spec_witness :
    (addCost 0 ⟨5, "Food", "", Option.none⟩ emptyStore).1
      = emptyStore.nextId :=
  (addCost_spec 0 ⟨5, "Food", "", Option.none⟩ emptyStore
    (by intro c hc; exact absurd hc (List.not_mem_nil c))).1

/-- C8: `addCost` persists an input lacking a `date` with the current
moment at call time, and persists an input that carries a date with that
date unchanged; the other supplied fields are stored as given. -/
theorem addCost_date_spec (now : Nat) (cost : CostInput) (st : CostStore) :
    ∃ r, (addCost now cost st).2.records = st.records ++ [r] ∧
      r.sum = cost.sum ∧ r.category = cost.category ∧
      r.description = cost.description ∧
      (cost.date = Option.none → r.date = now) ∧
      (∀ d, cost.date = some d → r.date = d) := by
  refine ⟨⟨st.nextId, cost.sum, cost.category, cost.description,
      cost.date.getD now⟩, rfl, rfl, rfl, rfl, ?_, ?_⟩
  · intro h
    simp [h]
  · intro d h
    simp [h]

/-- C8 witness: a dateless input added at time 7 is stored with date 7. -/
theorem addCost_date_spec_witness :
    ∃ r : Cost,
      (addCost 7 ⟨5, "Food", "", Option.none⟩ emptyStore).2.records
        = emptyStore.records ++ [r] ∧ r.date = 7 := by
  obtain ⟨r, h1, _, _, _, h5, _⟩ :=
    addCost_date_spec 7 ⟨5, "Food", "", Option.none⟩ emptyStore
  exact ⟨r, h1, h5 rfl⟩

/-- C9: over a range containing no records, `getCostsByDateRange`
resolves successfully with the empty sequence and `getCostsByCategory`
with the empty mapping. -/
theorem emptyRange_spec (startDate endDate : Nat) (st : CostStore)
    (h : ∀ c ∈ st.records,
      ¬(startOfDay startDate ≤ c.date ∧ c.date ≤ endOfDay endDate)) :
    (getCostsByDateRange startDate endDate st).costs = [] ∧
    (getCostsByCategory startDate endDate st).totals = [] := by
  have hfilter : st.records.filter
      (inRange (startOfDay startDate) (endOfDay endDate)) = [] := by
    apply List.filter_eq_nil_iff.mpr
    intro c hc
    rw [inRange_iff]
    exact h c hc
  have hcosts : (getCostsByDateRange startDate endDate st).costs = [] := by
    rw [show (getCostsByDateRange startDate endDate st).costs
        = sortByDateId (st.records.filter
            (inRange (startOfDay startDate) (endOfDay endDate))) from rfl,
      hfilter]
    rfl
  refine ⟨hcosts, ?_⟩
  rw [show (getCostsByCategory startDate endDate st).totals
      = ((getCostsByDateRange startDate endDate st).costs).foldl
          (fun acc c => bumpCategory acc c.category c.sum) [] from rfl,
    hcosts]
  rfl

/-- C9 witness. -/
theorem emptyRange_spec_witness :
    (getCostsByDateRange 86400000 86400000
        ⟨[⟨1, 5, "Food", "", 0⟩], 2⟩).costs = [] :=
  (emptyRange_spec 86400000 86400000 ⟨[⟨1, 5, "Food", "", 0⟩], 2⟩
    (by decide)).1

end CostManager
